import Mathlib

/-!
Verification development for the go-semver-release version-computation core.

The Go sources embedded here:
- internal/semver/semver.go : the Semver value type, its bump operations,
  formatting, regex-based tag parsing and the Precedence comparison;
- the commit-analyzer file : release-rule validation, latest-tag
  resolution and the rule-driven bump loop (ComputeNewSemverNumber).

Modelling conventions:
- Go strings are modelled as List Char.  All character classes appearing in
  the two regexes of the source are ASCII, so rune-level modelling coincides
  with the source; the byte-level slicing in shortMessage coincides on ASCII
  messages.
- Go int is modelled as Nat: every integer the source stores in a Semver is
  produced either by a validated constructor (gte=0) or by parsing a decimal
  digit group, and the source never subtracts.  Overflow of 64-bit int is
  outside the modelled range of inputs.
- Fallible operations return Option; none models a returned Go error.
-/

/-! ## Character classes used by the source regexes (all ASCII in RE2) -/

/-- Class \w of RE2 without Unicode flags: [0-9A-Za-z_]. -/
def isWordChar (c : Char) : Bool := c.isAlphanum || c = '_'

/-- Class [a-zA-Z-]. -/
def isAlphaDash (c : Char) : Bool := c.isAlpha || c = '-'

/-- Class [0-9a-zA-Z-]. -/
def isAlnumDash (c : Char) : Bool := c.isAlphanum || c = '-'

/-- Scope class of the conventional-commit regex: word chars, dash, dot,
backslash, slash. -/
def isScopeChar (c : Char) : Bool :=
  isWordChar c || c = '-' || c = '.' || c = '\\' || c = '/'

/-- Description class of the conventional-commit regex: word chars or space. -/
def isDescChar (c : Char) : Bool := isWordChar c || c = ' '

/-! ## The Semver value type (internal/semver/semver.go) -/

/-- Source struct Semver.  Major, Minor, Patch are Go ints constrained
non-negative by every constructor of the source; BuildMetadata is a string. -/
structure Semver where
  Major : Nat
  Minor : Nat
  Patch : Nat
  BuildMetadata : List Char
deriving DecidableEq, Repr

/-- Source method BumpPatch: Patch increments. -/
def Semver.BumpPatch (s : Semver) : Semver := { s with Patch := s.Patch + 1 }

/-- Source method BumpMinor: Patch resets to 0, Minor increments. -/
def Semver.BumpMinor (s : Semver) : Semver :=
  { s with Patch := 0, Minor := s.Minor + 1 }

/-- Source method BumpMajor: Patch and Minor reset to 0, Major increments. -/
def Semver.BumpMajor (s : Semver) : Semver :=
  { s with Patch := 0, Minor := 0, Major := s.Major + 1 }

/-- Source method IsZero, literally Major == Minor and Minor == Patch and
Patch == 0. -/
def Semver.IsZero (s : Semver) : Bool :=
  s.Major == s.Minor && s.Minor == s.Patch && s.Patch == 0

/-- The character for one decimal digit value. -/
def digitChar (d : Nat) : Char :=
  if d = 0 then '0' else if d = 1 then '1' else if d = 2 then '2'
  else if d = 3 then '3' else if d = 4 then '4' else if d = 5 then '5'
  else if d = 6 then '6' else if d = 7 then '7' else if d = 8 then '8' else '9'

/-- Decimal rendering of a Go int by fmt.Sprintf with verb d: most
significant digit first, no leading zeros, a single 0 for zero. -/
def decimalDigits (n : Nat) : List Char :=
  if h : n < 10 then [digitChar n]
  else decimalDigits (n / 10) ++ [digitChar (n % 10)]
termination_by n
decreasing_by exact Nat.div_lt_self (by omega) (by omega)

/-- Source method NormalVersion: renders Major.Minor.Patch. -/
def Semver.NormalVersion (s : Semver) : List Char :=
  decimalDigits s.Major ++ '.' :: decimalDigits s.Minor ++ '.' :: decimalDigits s.Patch

/-- Source method String on Semver: NormalVersion, with a plus and the build
metadata appended when the metadata is non-empty. -/
def Semver.Format (s : Semver) : List Char :=
  if s.BuildMetadata ≠ [] then s.NormalVersion ++ '+' :: s.BuildMetadata
  else s.NormalVersion

/-- Source method Precedence: 1 when s1 is more recent, -1 when s2 is,
0 when equal; compares Major, then Minor, then Patch; BuildMetadata is
never read. -/
def Semver.Precedence (s1 s2 : Semver) : Int :=
  if s1.Major > s2.Major then 1
  else if s1.Major < s2.Major then -1
  else if s1.Minor > s2.Minor then 1
  else if s1.Minor < s2.Minor then -1
  else if s1.Patch > s2.Patch then 1
  else if s1.Patch < s2.Patch then -1
  else 0

/-! ## Parsing a tag name against SemverRegex

SemverRegex (end-anchored only):
numbers  (0|[1-9] digits) three times, dot separated, then an optional
prerelease part (dash, then dot-separated identifiers, each identifier
being 0, or a nonzero number, or digits followed by one [a-zA-Z-] char and
[0-9a-zA-Z-] chars), then an optional build part (plus, then dot-separated
nonempty [0-9a-zA-Z-] runs), then end of input.

Go regexp (FindStringSubmatch, MatchString) uses leftmost-first semantics:
scan candidate start positions left to right; at the first position where a
backtracking search succeeds, return the first result that search finds.
The functions below are that backtracking search, determinized; every
determinization step is justified in place. -/

theorem dropWhile_length_le (p : Char → Bool) (l : List Char) :
    (l.dropWhile p).length ≤ l.length := by
  induction l with
  | nil => simp [List.dropWhile]
  | cons c t ih =>
    simp only [List.dropWhile]
    split
    · simp; omega
    · simp

/-- Number group 0|[1-9] digits, determinized.  The alternative 0 consumes
exactly one 0; it cannot be rescued by the second alternative (0 is not in
[1-9]).  The second alternative takes the maximal digit run: in every use
the continuation requires a dot, a dash, a plus, or end of input, so giving
back a digit leaves a digit where none of those can stand, and shorter runs
are dead.  Returns the captured digit text and the remainder. -/
def numToken : List Char → Option (List Char × List Char)
  | [] => none
  | c :: r =>
    if c = '0' then some ([c], r)
    else if c.isDigit then some (c :: r.takeWhile Char.isDigit, r.dropWhile Char.isDigit)
    else none

/-- Build part after the plus: one or more dot-separated nonempty
[0-9a-zA-Z-] runs, then end of input.  The greedy run is maximal (the class
excludes the dot), and giving back a class character leaves it where only a
dot or end of input can stand, so shorter runs are dead. -/
def buildIdents (s : List Char) : Bool :=
  match h : s.dropWhile isAlnumDash with
  | [] => !(s.takeWhile isAlnumDash).isEmpty
  | '.' :: r2 => !(s.takeWhile isAlnumDash).isEmpty && buildIdents r2
  | _ => false
termination_by s.length
decreasing_by
  have h1 : (s.dropWhile isAlnumDash).length ≤ s.length := dropWhile_length_le _ s
  rw [h] at h1
  simp at h1
  omega

/-- Prerelease identifier, numeric alternatives (0, or [1-9] digits),
determinized as numToken is: returns the remainder on success. -/
def preNumericRem : List Char → Option (List Char)
  | [] => none
  | c :: r =>
    if c = '0' then some r
    else if c.isDigit then some (r.dropWhile Char.isDigit)
    else none

/-- Prerelease identifier, third alternative: digits, then one [a-zA-Z-]
char, then [0-9a-zA-Z-] chars.  The leading digit run is maximal (giving
back a digit leaves it where [a-zA-Z-] is required and digits fail that
class); the trailing run is maximal (giving back a class character leaves
it where only dot, plus or end of input can stand). -/
def preAlphaRem (s : List Char) : Option (List Char) :=
  match s.dropWhile Char.isDigit with
  | [] => none
  | c :: r => if isAlphaDash c then some (r.dropWhile isAlnumDash) else none

theorem preNumericRem_length {s r : List Char} (h : preNumericRem s = some r) :
    r.length < s.length := by
  match s with
  | [] => simp [preNumericRem] at h
  | c :: t =>
    simp only [preNumericRem] at h
    split at h
    · cases h; simp
    · split at h
      · cases h
        have := dropWhile_length_le Char.isDigit t
        simp; omega
      · cases h

theorem preAlphaRem_length {s r : List Char} (h : preAlphaRem s = some r) :
    r.length < s.length := by
  unfold preAlphaRem at h
  have h1 : (s.dropWhile Char.isDigit).length ≤ s.length :=
    dropWhile_length_le _ s
  split at h
  · cases h
  case _ c r2 heq =>
    rw [heq] at h1
    split at h
    · cases h
      have := dropWhile_length_le isAlnumDash r2
      simp at h1
      omega
    · cases h

mutual

/-- Prerelease identifier followed by the rest of the prerelease list and
tail: the alternation tries the numeric alternatives first, then the
alphanumeric one, each followed by the full continuation (real
backtracking across alternatives). -/
def preIdents (s : List Char) : Bool :=
  (match h : preNumericRem s with
   | some r => preAfter r
   | none => false)
  ||
  (match h : preAlphaRem s with
   | some r => preAfter r
   | none => false)
termination_by (s.length, 1)
decreasing_by
  · exact Prod.Lex.left _ _ (preNumericRem_length h)
  · exact Prod.Lex.left _ _ (preAlphaRem_length h)

/-- Continuation after one prerelease identifier: a dot starts another
identifier (the greedy star iterates first; when the iteration fails, the
remainder starts with a dot which neither the build part nor end of input
accepts, so stopping the star fails too, and failure is final); a plus
starts the build part; end of input succeeds; anything else fails. -/
def preAfter : List Char → Bool
  | [] => true
  | '+' :: r => buildIdents r
  | '.' :: r => preIdents r
  | _ => false
termination_by s => (s.length, 0)
decreasing_by
  exact Prod.Lex.left _ _ (by simp)

end

/-- Tail of SemverRegex after the third number: optional prerelease part,
optional build part, end of input.  A dash must start the prerelease part
(skipping it leaves the dash where only a plus or end of input can stand),
a plus must start the build part, end of input succeeds, and any other
character fails the position. -/
def semverTail : List Char → Bool
  | [] => true
  | '-' :: r => preIdents r
  | '+' :: r => buildIdents r
  | _ => false

/-- Backtracking match of the whole SemverRegex at one start position,
returning the three captured number groups converted by Atoi.  Between the
numbers a literal dot is required. -/
def semverAt (s : List Char) : Option (List Char × List Char × List Char) :=
  match numToken s with
  | none => none
  | some (d1, r1) =>
    match r1 with
    | '.' :: r1b =>
      match numToken r1b with
      | none => none
      | some (d2, r2) =>
        match r2 with
        | '.' :: r2b =>
          match numToken r2b with
          | none => none
          | some (d3, r3) => if semverTail r3 then some (d1, d2, d3) else none
        | _ => none
    | _ => none

/-- Leftmost-first scan: try each start position from the left; the first
position at which the pattern matches supplies the submatches. -/
def semverFind : List Char → Option (List Char × List Char × List Char)
  | [] => semverAt []
  | c :: r =>
    match semverAt (c :: r) with
    | some t => some t
    | none => semverFind r

/-- Go strconv.Atoi on a nonempty decimal digit string (the only strings the
source feeds it: captured number groups of SemverRegex). -/
def digitsToNat (l : List Char) : Nat :=
  l.foldl (fun acc c => acc * 10 + (c.toNat - 48)) 0

/-- Source MatchString of SemverRegex against a tag name, used as the tag
filter. -/
def semverMatchString (s : List Char) : Bool := (semverFind s).isSome

/-- Source NewSemverFromGitTag: FindStringSubmatch, then Atoi on groups 1-3,
then NewSemver(major, minor, patch, empty string).  When a match exists the
submatch slice has 6 entries (5 groups), so the length check fails exactly
when there is no match; Atoi cannot fail on a captured digit group; the
NewSemver validation passes (components non-negative, metadata empty). -/
def NewSemverFromGitTag (tagName : List Char) : Option Semver :=
  match semverFind tagName with
  | none => none
  | some (d1, d2, d3) => some ⟨digitsToNat d1, digitsToNat d2, digitsToNat d3, []⟩

/-! ## The conventional-commit classifier (commit-analyzer source)

conventionalCommitRegex, start-anchored:
one type token out of eleven, an optional parenthesised scope of one or
more scope-class chars, an optional exclamation mark, then a colon and a
space, then one or more description-class chars, then anything.

The match is attempted at position 0 only (start anchor, no multiline
flag).  Since no type token is a prefix of another, at most one token can
be a literal prefix of the message, so the alternation never backtracks
across tokens.  The final group matches any char greedily to the end of
input, so when the regex matches, the whole match (submatch 0) is the whole
message. -/

/-- The eleven commit-type tokens, in the alternation order of the source
regex (also the oneof vocabulary of the ReleaseRule validation tag). -/
def commitTypeTokens : List (List Char) :=
  ["build".toList, "chore".toList, "ci".toList, "docs".toList, "feat".toList,
   "fix".toList, "perf".toList, "refactor".toList, "revert".toList,
   "style".toList, "test".toList]

/-- Optional scope group.  If the input starts with an opening parenthesis
the scope group must match (skipping it would leave the parenthesis where
only an exclamation mark or colon can stand): a nonempty maximal run of
scope-class chars then a closing parenthesis (the class excludes the
closing parenthesis, so the greedy run is maximal and shorter runs leave a
class char where the closing parenthesis is required).  Otherwise the group
is skipped.  Returns the remainder, or none when the position fails. -/
def scopeRem (s : List Char) : Option (List Char) :=
  match s with
  | '(' :: r =>
    match r.dropWhile isScopeChar with
    | ')' :: r2 => if (r.takeWhile isScopeChar).isEmpty then none else some r2
    | _ => none
  | _ => some s

/-- Optional exclamation-mark group: consumed when present (skipping it
would leave the exclamation mark where a colon is required). -/
def bangStep : List Char → Bool × List Char
  | '!' :: r => (true, r)
  | s => (false, s)

/-- Full match of conventionalCommitRegex against a message, returning the
captured type token (submatch 1) and whether the exclamation group matched
(submatch 3 nonempty).  After the colon and space at least one
description-class char is required; the rest of the message is absorbed by
the final greedy any-char group. -/
def matchConventional (msg : List Char) : Option (List Char × Bool) :=
  match commitTypeTokens.find? (fun t => List.isPrefixOf t msg) with
  | none => none
  | some ty =>
    match scopeRem (msg.drop ty.length) with
    | none => none
    | some r2 =>
      match bangStep r2 with
      | (bang, ':' :: ' ' :: c :: _) => if isDescChar c then some (ty, bang) else none
      | _ => none

/-- Go strings.Contains pat inside s: pat is a contiguous substring. -/
def containsSub (pat : List Char) : List Char → Bool
  | [] => List.isPrefixOf pat []
  | c :: r => List.isPrefixOf pat (c :: r) || containsSub pat r

/-- The literal token whose presence anywhere in the message marks a
breaking change. -/
def breakingMarker : List Char := "BREAKING CHANGE".toList

/-- Classification of one commit, as computed inside the bump loop of the
source: the commit type is submatch 1; breakingChange is true when
submatch 3 contains the exclamation mark or submatch 0 (the whole message,
see above) contains the breaking marker. -/
structure Classified where
  ctype : List Char
  breaking : Bool
deriving DecidableEq, Repr

/-- Per-commit classification step of the bump loop: none when the message
does not match the grammar (the loop then skips the commit). -/
def classifyCommit (msg : List Char) : Option Classified :=
  match matchConventional msg with
  | none => none
  | some (ty, bang) => some ⟨ty, bang || containsSub breakingMarker msg⟩

/-- True when the commit message is classified and marked breaking. -/
def isBreakingCommit (msg : List Char) : Bool :=
  match classifyCommit msg with
  | none => false
  | some cc => cc.breaking

/-! ## Release rules (commit-analyzer source) -/

/-- Source struct ReleaseRule: a commit type and a release severity, both
strings, both constrained by oneof vocabularies. -/
structure ReleaseRule where
  CommitType : List Char
  ReleaseType : List Char
deriving DecidableEq, Repr

/-- The severity vocabulary of the ReleaseType oneof tag. -/
def validReleaseTypes : List (List Char) :=
  ["major".toList, "minor".toList, "patch".toList]

/-- Per-rule validation: CommitType must be one of the eleven commit-type
tokens (required plus oneof: the empty string is outside the vocabulary
either way) and ReleaseType one of the three severities. -/
def validRule (r : ReleaseRule) : Bool :=
  commitTypeTokens.contains r.CommitType && validReleaseTypes.contains r.ReleaseType

/-- Source ParseReleaseRules after JSON decoding.  The input models the
decoded Rules slice: none models a nil slice (document missing, null field,
or undecodable input, including the nil ReleaseRules pointer), some l a
present slice with elements l.  The struct-level validation has the single
tag required on the slice, which for a slice kind checks only that it is
not nil (go-playground/validator v10 documented semantics: for slices,
required ensures the value is not nil); an empty non-nil slice passes.
Then each rule is validated individually.  No deduplication occurs. -/
def ParseReleaseRules (rules : Option (List ReleaseRule)) : Option (List ReleaseRule) :=
  match rules with
  | none => none
  | some l => if l.all validRule then some l else none

/-! ## The bump loop of ComputeNewSemverNumber -/

/-- Inner rule loop for one classified, non-breaking commit: each rule whose
CommitType equals the commit type is applied in rule-list order; severity
patch bumps patch, minor bumps minor, major bumps major, each setting the
release flag; any other severity (impossible for validated rules) only
logs.  Mirrors the continue statement and the switch of the source. -/
def applyRules (rules : List ReleaseRule) (ctype : List Char) (v : Semver) (flag : Bool) :
    Semver × Bool :=
  match rules with
  | [] => (v, flag)
  | rule :: rest =>
    if ctype ≠ rule.CommitType then applyRules rest ctype v flag
    else if rule.ReleaseType = "patch".toList then applyRules rest ctype v.BumpPatch true
    else if rule.ReleaseType = "minor".toList then applyRules rest ctype v.BumpMinor true
    else if rule.ReleaseType = "major".toList then applyRules rest ctype v.BumpMajor true
    else applyRules rest ctype v flag

/-- The commit loop of ComputeNewSemverNumber over the oldest-first message
list: unmatched messages are skipped; a breaking commit bumps major, sets
the flag and terminates the loop immediately (the break statement); other
classified commits go through the rule loop. -/
def bumpLoop (rules : List ReleaseRule) (v : Semver) (flag : Bool) :
    List (List Char) → Semver × Bool
  | [] => (v, flag)
  | msg :: rest =>
    match classifyCommit msg with
    | none => bumpLoop rules v flag rest
    | some cc =>
      if cc.breaking then (v.BumpMajor, true)
      else
        let p := applyRules rules cc.ctype v flag
        bumpLoop rules p.1 p.2 rest

/-- ComputeNewSemverNumber, restricted to its algorithmic core: given the
parsed latest version and the commit messages already reversed to
oldest-first order, run the bump loop with the release flag initially
false.  Retrieval of the history and the reversal are the environment. -/
def ComputeNewSemverNumber (rules : List ReleaseRule) (current : Semver)
    (history : List (List Char)) : Semver × Bool :=
  bumpLoop rules current false history

/-- Modelled from the spec: the comparison variant of the bump loop that,
instead of terminating at a breaking commit, keeps folding the remaining
commits after the major bump.  This definition follows the words of the
refinement claim and exists only to be compared with bumpLoop. -/
def bumpLoopAll (rules : List ReleaseRule) (v : Semver) (flag : Bool) :
    List (List Char) → Semver × Bool
  | [] => (v, flag)
  | msg :: rest =>
    match classifyCommit msg with
    | none => bumpLoopAll rules v flag rest
    | some cc =>
      if cc.breaking then bumpLoopAll rules v.BumpMajor true rest
      else
        let p := applyRules rules cc.ctype v flag
        bumpLoopAll rules p.1 p.2 rest

/-- Modelled from the spec: ComputeNewSemverNumber with the non-terminating
loop variant, for the refinement comparison. -/
def computeAllVariant (rules : List ReleaseRule) (current : Semver)
    (history : List (List Char)) : Semver × Bool :=
  bumpLoopAll rules current false history

/-- Source shortMessage: when the message exceeds 60 chars, its first 57
chars and a three-dot ellipsis; otherwise the message without its final
char (byte slicing in the source; identical on ASCII messages). -/
def shortMessage (message : List Char) : List Char :=
  if message.length > 60 then message.take 57 ++ "...".toList
  else message.take (message.length - 1)

/-! ## Latest-tag resolution (fetchLatestSemverTag) -/

/-- A repository tag as far as this component reads it: its name.  Target
hash and tagger timestamp are carried by the environment. -/
structure TagObject where
  Name : List Char
deriving DecidableEq, Repr

/-- Outcome of fetchLatestSemverTag: either the synthetic zero version
anchored at the repository head (no semver tag existed) or one of the
existing tags. -/
inductive LatestTagResult where
  | synthetic : LatestTagResult
  | found : TagObject → LatestTagResult
deriving DecidableEq, Repr

/-- The multi-candidate reduction loop of fetchLatestSemverTag from its
second iteration on: the retained tag is replaced exactly when the new
candidate parses to a version whose Precedence over the retained version
is 1; parse failure of either side aborts with an error. -/
def reduceLatest (latest : TagObject) : List TagObject → Option TagObject
  | [] => some latest
  | t :: rest =>
    match NewSemverFromGitTag t.Name, NewSemverFromGitTag latest.Name with
    | some current, some old =>
      reduceLatest (if current.Precedence old = 1 then t else latest) rest
    | _, _ => none

/-- Source fetchLatestSemverTag: filter the tag set by MatchString of
SemverRegex; with no candidate, synthesize the zero version at head; with
one candidate, return it unparsed; with several, parse the first (an error
aborts) and reduce the rest pairwise. -/
def fetchLatestSemverTag (tags : List TagObject) : Option LatestTagResult :=
  match tags.filter (fun t => semverMatchString t.Name) with
  | [] => some .synthetic
  | [t] => some (.found t)
  | t0 :: t1 :: rest =>
    match NewSemverFromGitTag t0.Name with
    | none => none
    | some _ => (reduceLatest t0 (t1 :: rest)).map .found

/-! ## Statement-level helper definitions -/

/-- Strict lexicographic order on the numeric triple, used to state what
Precedence computes. -/
def ltKey (a b : Semver) : Prop :=
  a.Major < b.Major ∨
  (a.Major = b.Major ∧ (a.Minor < b.Minor ∨ (a.Minor = b.Minor ∧ a.Patch < b.Patch)))

/-- The bump selected by a release severity, identity for severities outside
the vocabulary, used to state the rule-fold characterization. -/
def bumpBySeverity (sev : List Char) (v : Semver) : Semver :=
  if sev = "patch".toList then v.BumpPatch
  else if sev = "minor".toList then v.BumpMinor
  else if sev = "major".toList then v.BumpMajor
  else v

/-- Tag a parses and tag b parses and the parsed version of a has strict
precedence over that of b. -/
def tagStrictlyLater (a b : TagObject) : Prop :=
  ∃ va vb, NewSemverFromGitTag a.Name = some va ∧
    NewSemverFromGitTag b.Name = some vb ∧ va.Precedence vb = 1

/-- A nonempty prerelease identifier of letters and dashes (no digits). -/
def goodPreIdent (l : List Char) : Prop :=
  l ≠ [] ∧ ∀ c ∈ l, isAlphaDash c = true ∧ c.isDigit = false

/-- A nonempty build identifier of letters, digits and dashes. -/
def goodBuildIdent (l : List Char) : Prop :=
  l ≠ [] ∧ ∀ c ∈ l, isAlnumDash c = true

/-- The optional prerelease and build suffix shapes quantified over in the
amended anchored-pattern claim. -/
def versionSuffix (suf : List Char) : Prop :=
  suf = [] ∨
  (∃ pre, goodPreIdent pre ∧ suf = '-' :: pre) ∨
  (∃ b, goodBuildIdent b ∧ suf = '+' :: b) ∨
  (∃ pre b, goodPreIdent pre ∧ goodBuildIdent b ∧ suf = '-' :: pre ++ '+' :: b)

/-! ## Helper lemmas on Precedence -/

theorem prec_one_iff (a b : Semver) : a.Precedence b = 1 ↔ ltKey b a := by
  unfold Semver.Precedence ltKey
  split_ifs <;> simp <;> omega

theorem prec_negone_iff (a b : Semver) : a.Precedence b = -1 ↔ ltKey a b := by
  unfold Semver.Precedence ltKey
  split_ifs <;> simp <;> omega

theorem prec_zero_iff (a b : Semver) :
    a.Precedence b = 0 ↔ (a.Major = b.Major ∧ a.Minor = b.Minor ∧ a.Patch = b.Patch) := by
  unfold Semver.Precedence
  split_ifs <;> simp <;> omega

theorem prec_values (a b : Semver) :
    a.Precedence b = 1 ∨ a.Precedence b = -1 ∨ a.Precedence b = 0 := by
  unfold Semver.Precedence
  split_ifs <;> simp

theorem prec_refl (a : Semver) : a.Precedence a = 0 := by
  rw [prec_zero_iff]
  exact ⟨rfl, rfl, rfl⟩

theorem prec_trans {a b c : Semver} (h1 : a.Precedence b = 1) (h2 : b.Precedence c = 1) :
    a.Precedence c = 1 := by
  rw [prec_one_iff] at *
  unfold ltKey at *
  omega

theorem prec_zero_congr {a b : Semver} (h : a.Precedence b = 0) (c : Semver) :
    a.Precedence c = b.Precedence c := by
  rw [prec_zero_iff] at h
  unfold Semver.Precedence
  rw [h.1, h.2.1, h.2.2]

theorem prec_antisym {a b : Semver} : a.Precedence b = 1 ↔ b.Precedence a = -1 := by
  rw [prec_one_iff, prec_negone_iff]

theorem prec_metadata_irrelevant (a b : Semver) (m1 m2 : List Char) :
    Semver.Precedence { a with BuildMetadata := m1 } { b with BuildMetadata := m2 } =
      a.Precedence b := rfl

theorem bumpPatch_gt (v : Semver) : v.BumpPatch.Precedence v = 1 := by
  rw [prec_one_iff]
  unfold ltKey Semver.BumpPatch
  simp

theorem bumpMinor_gt (v : Semver) : v.BumpMinor.Precedence v = 1 := by
  rw [prec_one_iff]
  unfold ltKey Semver.BumpMinor
  simp

theorem bumpMajor_gt (v : Semver) : v.BumpMajor.Precedence v = 1 := by
  rw [prec_one_iff]
  unfold ltKey Semver.BumpMajor
  simp

/-- C5: Precedence is a strict total order on the numeric triples: for all
versions exactly one of the values 1, -1, 0 is returned; the value-1
relation is transitive; the three values characterize strict lexicographic
comparison of major, then minor, then patch, and equality of the triple;
build metadata never participates. -/
theorem c5_precedence_total_order :
    ∀ a b c : Semver,
      ((a.Precedence b = 1 ∧ a.Precedence b ≠ -1 ∧ a.Precedence b ≠ 0) ∨
       (a.Precedence b ≠ 1 ∧ a.Precedence b = -1 ∧ a.Precedence b ≠ 0) ∨
       (a.Precedence b ≠ 1 ∧ a.Precedence b ≠ -1 ∧ a.Precedence b = 0)) ∧
      (a.Precedence b = 1 → b.Precedence c = 1 → a.Precedence c = 1) ∧
      (a.Precedence b = 1 ↔ ltKey b a) ∧
      (a.Precedence b = -1 ↔ ltKey a b) ∧
      (a.Precedence b = 0 ↔ a.Major = b.Major ∧ a.Minor = b.Minor ∧ a.Patch = b.Patch) ∧
      (∀ m1 m2, Semver.Precedence { a with BuildMetadata := m1 }
          { b with BuildMetadata := m2 } = a.Precedence b) := by
  intro a b c
  refine ⟨?_, fun h1 h2 => prec_trans h1 h2, prec_one_iff a b, prec_negone_iff a b,
    prec_zero_iff a b, fun m1 m2 => prec_metadata_irrelevant a b m1 m2⟩
  rcases prec_values a b with h | h | h
  · exact Or.inl ⟨h, by omega, by omega⟩
  · exact Or.inr (Or.inl ⟨by omega, h, by omega⟩)
  · exact Or.inr (Or.inr ⟨by omega, by omega, h⟩)

/-- Witness for C5 at concrete versions, discharging the transitivity
hypotheses at 3.0.0, 2.0.0, 1.0.0. -/
theorem c5_precedence_total_order_witness :
    Semver.Precedence ⟨3, 0, 0, []⟩ ⟨1, 0, 0, []⟩ = 1 :=
  (c5_precedence_total_order ⟨3, 0, 0, []⟩ ⟨2, 0, 0, []⟩ ⟨1, 0, 0, []⟩).2.1
    (by decide) (by decide)

/-! ## Helper lemmas on decimal digit strings -/

theorem digitChar_isDigit {d : Nat} (h : d < 10) : (digitChar d).isDigit = true := by
  interval_cases d <;> decide

theorem digitChar_ne_zero {d : Nat} (h : d < 10) (h0 : d ≠ 0) : digitChar d ≠ '0' := by
  interval_cases d
  · exact absurd rfl h0
  all_goals decide

theorem digitChar_toNat {d : Nat} (h : d < 10) : (digitChar d).toNat = 48 + d := by
  interval_cases d <;> decide

theorem decimalDigits_ne_nil (n : Nat) : decimalDigits n ≠ [] := by
  unfold decimalDigits
  split <;> simp

theorem decimalDigits_all_digit (n : Nat) : ∀ c ∈ decimalDigits n, c.isDigit = true := by
  induction n using Nat.strong_induction_on with
  | _ n ih =>
    unfold decimalDigits
    split
    · intro c hc
      simp at hc
      subst hc
      exact digitChar_isDigit (by omega)
    · intro c hc
      simp at hc
      rcases hc with hc | hc
      · exact ih (n / 10) (Nat.div_lt_self (by omega) (by omega)) c hc
      · subst hc
        exact digitChar_isDigit (Nat.mod_lt _ (by omega))

theorem decimalDigits_head_ne_zero (n : Nat) (hn : n ≠ 0) :
    (decimalDigits n).head? ≠ some '0' := by
  induction n using Nat.strong_induction_on with
  | _ n ih =>
    unfold decimalDigits
    split
    · simp
      exact digitChar_ne_zero (by omega) hn
    · rename_i h
      obtain ⟨d, ds, hds⟩ := List.exists_cons_of_ne_nil (decimalDigits_ne_nil (n / 10))
      rw [hds, List.cons_append, List.head?_cons]
      have : (decimalDigits (n / 10)).head? ≠ some '0' :=
        ih (n / 10) (Nat.div_lt_self (by omega) (by omega)) (by omega)
      rw [hds, List.head?_cons] at this
      exact this

theorem digitsToNat_decimalDigits (n : Nat) : digitsToNat (decimalDigits n) = n := by
  induction n using Nat.strong_induction_on with
  | _ n ih =>
    unfold decimalDigits
    split
    · unfold digitsToNat
      simp
      rw [digitChar_toNat (by omega)]
      omega
    · unfold digitsToNat
      rw [List.foldl_append]
      have h1 := ih (n / 10) (Nat.div_lt_self (by omega) (by omega))
      unfold digitsToNat at h1
      rw [h1]
      simp
      rw [digitChar_toNat (Nat.mod_lt _ (by omega))]
      omega

theorem takeWhile_append_all {p : Char → Bool} {l : List Char} (r : List Char)
    (hl : ∀ c ∈ l, p c = true) :
    (l ++ r).takeWhile p = l ++ r.takeWhile p := by
  induction l with
  | nil => simp
  | cons c t ih =>
    simp only [List.cons_append, List.takeWhile_cons]
    rw [hl c (by simp)]
    simp only [if_true]
    rw [ih (fun x hx => hl x (by simp [hx]))]

theorem dropWhile_append_all {p : Char → Bool} {l : List Char} (r : List Char)
    (hl : ∀ c ∈ l, p c = true) :
    (l ++ r).dropWhile p = r.dropWhile p := by
  induction l with
  | nil => simp
  | cons c t ih =>
    simp only [List.cons_append, List.dropWhile_cons]
    rw [hl c (by simp)]
    simp only [if_true]
    exact ih (fun x hx => hl x (by simp [hx]))

/-- A list whose head, if any, is not a digit. -/
def headNotDigit (l : List Char) : Prop := ∀ c cs, l = c :: cs → c.isDigit = false

theorem takeWhile_digit_stop {r : List Char} (hr : headNotDigit r) :
    r.takeWhile Char.isDigit = [] := by
  cases r with
  | nil => simp
  | cons c cs =>
    simp only [List.takeWhile_cons]
    rw [hr c cs rfl]
    simp

theorem dropWhile_digit_stop {r : List Char} (hr : headNotDigit r) :
    r.dropWhile Char.isDigit = r := by
  cases r with
  | nil => simp
  | cons c cs =>
    simp only [List.dropWhile_cons]
    rw [hr c cs rfl]
    simp

/-- The number group consumes exactly a canonically rendered number when what
follows cannot extend the digit run. -/
theorem numToken_decimal (n : Nat) (rest : List Char) (hrest : headNotDigit rest) :
    numToken (decimalDigits n ++ rest) = some (decimalDigits n, rest) := by
  by_cases h0 : n = 0
  · subst h0
    have : decimalDigits 0 = ['0'] := by unfold decimalDigits; simp; rfl
    rw [this]
    simp [numToken]
  · obtain ⟨d, ds, hds⟩ := List.exists_cons_of_ne_nil (decimalDigits_ne_nil n)
    have hdnz : d ≠ '0' := by
      have := decimalDigits_head_ne_zero n h0
      rw [hds, List.head?_cons] at this
      intro hEq
      exact this (by rw [hEq])
    have hdd : d.isDigit = true := decimalDigits_all_digit n d (by rw [hds]; simp)
    have hall : ∀ c ∈ ds, c.isDigit = true := fun c hc =>
      decimalDigits_all_digit n c (by rw [hds]; simp [hc])
    rw [hds, List.cons_append]
    simp only [numToken]
    rw [if_neg hdnz, if_pos hdd]
    rw [takeWhile_append_all rest hall, dropWhile_append_all rest hall]
    rw [takeWhile_digit_stop hrest, dropWhile_digit_stop hrest]
    simp


theorem dropWhile_all_nil {p : Char → Bool} {l : List Char}
    (hl : ∀ c ∈ l, p c = true) : l.dropWhile p = [] := by
  have := dropWhile_append_all (p := p) (l := l) [] hl
  simpa using this

theorem takeWhile_all_self {p : Char → Bool} {l : List Char}
    (hl : ∀ c ∈ l, p c = true) : l.takeWhile p = l := by
  have := takeWhile_append_all (p := p) (l := l) [] hl
  simpa using this

theorem alphaDash_alnumDash {c : Char} (h : isAlphaDash c = true) :
    isAlnumDash c = true := by
  unfold isAlphaDash at h
  unfold isAlnumDash Char.isAlphanum
  rcases Bool.or_eq_true_iff.mp h with h1 | h1 <;> simp [h1]

theorem buildIdents_good {b : List Char} (hb : goodBuildIdent b) :
    buildIdents b = true := by
  obtain ⟨hne, hall⟩ := hb
  have hdrop : b.dropWhile isAlnumDash = [] := dropWhile_all_nil hall
  have htake : b.takeWhile isAlnumDash = b := takeWhile_all_self hall
  unfold buildIdents
  split <;> simp_all

theorem preIdents_good {pre : List Char} (hpre : goodPreIdent pre) (rT : List Char)
    (hrT : rT = [] ∨ ∃ b, goodBuildIdent b ∧ rT = '+' :: b) :
    preIdents (pre ++ rT) = true := by
  obtain ⟨hne, hall⟩ := hpre
  obtain ⟨c, cs, hcs⟩ := List.exists_cons_of_ne_nil hne
  subst hcs
  have hcAD : isAlphaDash c = true := (hall c (by simp)).1
  have hcND : c.isDigit = false := (hall c (by simp)).2
  have hcsAll : ∀ x ∈ cs, isAlnumDash x = true := fun x hx =>
    alphaDash_alnumDash (hall x (by simp [hx])).1
  have halpha : preAlphaRem (c :: (cs ++ rT)) = some ((cs ++ rT).dropWhile isAlnumDash) := by
    unfold preAlphaRem
    rw [List.dropWhile_cons_of_neg (by simp [hcND])]
    simp [hcAD]
  have hrest : (cs ++ rT).dropWhile isAlnumDash = rT.dropWhile isAlnumDash :=
    dropWhile_append_all rT hcsAll
  have hafter : preAfter (rT.dropWhile isAlnumDash) = true := by
    rcases hrT with h | ⟨b, hb, h⟩
    · subst h
      simp only [List.dropWhile_nil]
      simp [preAfter]
    · subst h
      rw [List.dropWhile_cons_of_neg (by decide)]
      simp only [preAfter]
      exact buildIdents_good hb
  rw [List.cons_append]
  unfold preIdents
  rw [Bool.or_eq_true]
  right
  split
  case _ r heq =>
    rw [halpha] at heq
    injection heq with heq
    rw [← heq, hrest]
    exact hafter
  case _ heq =>
    rw [halpha] at heq
    cases heq

theorem semverTail_versionSuffix {suf : List Char} (h : versionSuffix suf) :
    semverTail suf = true := by
  rcases h with h | ⟨pre, hpre, h⟩ | ⟨b, hb, h⟩ | ⟨pre, b, hpre, hb, h⟩
  · subst h; rfl
  · subst h
    simp only [semverTail]
    have := preIdents_good hpre [] (Or.inl rfl)
    simpa using this
  · subst h
    simp only [semverTail]
    exact buildIdents_good hb
  · subst h
    simp only [semverTail]
    exact preIdents_good hpre ('+' :: b) (Or.inr ⟨b, hb, rfl⟩)

theorem versionSuffix_headNotDigit {suf : List Char} (h : versionSuffix suf) :
    headNotDigit suf := by
  rcases h with h | ⟨pre, hpre, h⟩ | ⟨b, hb, h⟩ | ⟨pre, b, hpre, hb, h⟩ <;> subst h <;>
    intro c cs hc
  · simp at hc
  · cases hc; decide
  · cases hc; decide
  · cases hc; decide

theorem semverFind_of_at {s : List Char} {t : List Char × List Char × List Char}
    (h : semverAt s = some t) : semverFind s = some t := by
  cases s with
  | nil => rw [semverFind, h]
  | cons c r =>
    rw [semverFind, h]

theorem semverAt_not_digit {c : Char} (hc : c.isDigit = false) (r : List Char) :
    semverAt (c :: r) = none := by
  have hc0 : c ≠ '0' := by
    intro hEq
    rw [hEq] at hc
    exact absurd hc (by decide)
  unfold semverAt
  simp only [numToken, if_neg hc0, hc]
  simp

theorem semverFind_skip {s : List Char} (hs : ∀ c ∈ s, c.isDigit = false)
    (r : List Char) : semverFind (s ++ r) = semverFind r := by
  induction s with
  | nil => simp
  | cons c t ih =>
    rw [List.cons_append]
    rw [semverFind, semverAt_not_digit (hs c (by simp)) (t ++ r)]
    exact ih (fun x hx => hs x (by simp [hx]))

theorem semverFind_append_isSome {r : List Char} (h : (semverFind r).isSome = true)
    (s : List Char) : (semverFind (s ++ r)).isSome = true := by
  induction s with
  | nil => simpa using h
  | cons c t ih =>
    rw [List.cons_append]
    rw [semverFind]
    cases hat : semverAt (c :: (t ++ r)) with
    | some v => simp
    | none => simpa using ih

/-- At one start position, a canonically rendered triple followed by a
well-formed optional suffix matches the whole pattern with the three
rendered numbers as the captured groups. -/
theorem semverAt_canonical (M m p : Nat) (suffix : List Char)
    (htail : semverTail suffix = true) (hhead : headNotDigit suffix) :
    semverAt (Semver.NormalVersion ⟨M, m, p, []⟩ ++ suffix) =
      some (decimalDigits M, decimalDigits m, decimalDigits p) := by
  unfold Semver.NormalVersion
  simp only [List.append_assoc, List.cons_append]
  have hd : headNotDigit ('.' :: (decimalDigits m ++ ('.' :: (decimalDigits p ++ suffix)))) := by
    intro c cs hc
    cases hc
    decide
  have hd2 : headNotDigit ('.' :: (decimalDigits p ++ suffix)) := by
    intro c cs hc
    cases hc
    decide
  have e1 := numToken_decimal M ('.' :: (decimalDigits m ++ ('.' :: (decimalDigits p ++ suffix)))) hd
  have e2 := numToken_decimal m ('.' :: (decimalDigits p ++ suffix)) hd2
  have e3 := numToken_decimal p suffix hhead
  unfold semverAt
  rw [e1]
  simp only []
  rw [e2]
  simp only []
  rw [e3]
  simp [htail]

/-- C6: parsing the string produced by formatting a version with no build
metadata yields the version back. -/
theorem c6_parse_format_roundtrip (v : Semver) (hbm : v.BuildMetadata = []) :
    NewSemverFromGitTag v.Format = some v := by
  obtain ⟨M, m, p, bm⟩ := v
  simp only at hbm
  subst hbm
  have hfmt : Semver.Format ⟨M, m, p, []⟩ = Semver.NormalVersion ⟨M, m, p, []⟩ := by
    unfold Semver.Format
    simp
  have hat := semverAt_canonical M m p [] rfl (fun c cs hc => by simp at hc)
  rw [List.append_nil] at hat
  unfold NewSemverFromGitTag
  rw [hfmt, semverFind_of_at hat]
  simp only [digitsToNat_decimalDigits]

/-- Witness for C6 at a concrete version. -/
theorem c6_parse_format_roundtrip_witness :
    NewSemverFromGitTag (Semver.Format ⟨1, 22, 333, []⟩) = some ⟨1, 22, 333, []⟩ :=
  c6_parse_format_roundtrip ⟨1, 22, 333, []⟩ rfl

/-- C10 counterexample: the tag built from the prefix 4 and the version text
1.2.3 passes the filter but parses to the triple 41.2.3, not to 1.2.3: the
leftmost match starts inside the prefix, merging its digit into the major
component. -/
theorem c10_prefix_digit_merges :
    semverMatchString ("4".toList ++ "1.2.3".toList) = true ∧
    NewSemverFromGitTag ("4".toList ++ "1.2.3".toList) = some ⟨41, 2, 3, []⟩ ∧
    (41 : Nat) ≠ 1 := by
  refine ⟨by decide, by decide, by decide⟩

/-- C10 amended: the pattern is anchored only at the end, so the filter
accepts an arbitrary prefix before a canonically rendered version text with
a well-formed optional prerelease or build suffix; for a digit-free prefix
the parse also returns exactly the rendered triple, with the suffix
accepted but discarded (the parsed version always has empty build
metadata).  A prefix ending in digits can instead merge into the major
component, as the counterexample shows. -/
theorem c10_amended_anchoring :
    (∀ (s : List Char) (M m p : Nat) (suf : List Char), versionSuffix suf →
      semverMatchString (s ++ (Semver.NormalVersion ⟨M, m, p, []⟩ ++ suf)) = true) ∧
    (∀ (s : List Char) (M m p : Nat) (suf : List Char),
      (∀ c ∈ s, c.isDigit = false) → versionSuffix suf →
      NewSemverFromGitTag (s ++ (Semver.NormalVersion ⟨M, m, p, []⟩ ++ suf)) =
        some ⟨M, m, p, []⟩) := by
  constructor
  · intro s M m p suf hsuf
    have hat := semverAt_canonical M m p suf (semverTail_versionSuffix hsuf)
      (versionSuffix_headNotDigit hsuf)
    unfold semverMatchString
    exact semverFind_append_isSome (by rw [semverFind_of_at hat]; rfl) s
  · intro s M m p suf hs hsuf
    have hat := semverAt_canonical M m p suf (semverTail_versionSuffix hsuf)
      (versionSuffix_headNotDigit hsuf)
    unfold NewSemverFromGitTag
    rw [semverFind_skip hs, semverFind_of_at hat]
    simp only [digitsToNat_decimalDigits]

/-- Witness for the amended C10 at the prefix v, version 1.2.3 and suffix
-rc+build01. -/
theorem c10_amended_anchoring_witness :
    NewSemverFromGitTag ("v".toList ++
        (Semver.NormalVersion ⟨1, 2, 3, []⟩ ++ ('-' :: "rc".toList ++ '+' :: "build01".toList))) =
      some ⟨1, 2, 3, []⟩ :=
  c10_amended_anchoring.2 "v".toList 1 2 3 ('-' :: "rc".toList ++ '+' :: "build01".toList)
    (by decide)
    (Or.inr (Or.inr (Or.inr ⟨"rc".toList, "build01".toList, ⟨by decide, by decide⟩,
      ⟨by decide, by decide⟩, by decide⟩)))

/-! ## Helper lemmas on the bump loop -/

theorem applyRules_inv (ty : List Char) :
    ∀ (rules : List ReleaseRule) (v : Semver) (f : Bool),
      applyRules rules ty v f = (v, f) ∨
      ((applyRules rules ty v f).1.Precedence v = 1 ∧ (applyRules rules ty v f).2 = true) := by
  intro rules
  induction rules with
  | nil =>
    intro v f
    left
    rfl
  | cons rule rest ih =>
    intro v f
    by_cases hty : ty ≠ rule.CommitType
    · rw [applyRules, if_pos hty]
      exact ih v f
    · rw [applyRules, if_neg hty]
      by_cases hp : rule.ReleaseType = "patch".toList
      · rw [if_pos hp]
        rcases ih v.BumpPatch true with h | ⟨h1, h2⟩
        · rw [h]
          exact Or.inr ⟨bumpPatch_gt v, rfl⟩
        · exact Or.inr ⟨prec_trans h1 (bumpPatch_gt v), h2⟩
      · rw [if_neg hp]
        by_cases hm : rule.ReleaseType = "minor".toList
        · rw [if_pos hm]
          rcases ih v.BumpMinor true with h | ⟨h1, h2⟩
          · rw [h]
            exact Or.inr ⟨bumpMinor_gt v, rfl⟩
          · exact Or.inr ⟨prec_trans h1 (bumpMinor_gt v), h2⟩
        · rw [if_neg hm]
          by_cases hM : rule.ReleaseType = "major".toList
          · rw [if_pos hM]
            rcases ih v.BumpMajor true with h | ⟨h1, h2⟩
            · rw [h]
              exact Or.inr ⟨bumpMajor_gt v, rfl⟩
            · exact Or.inr ⟨prec_trans h1 (bumpMajor_gt v), h2⟩
          · rw [if_neg hM]
            exact ih v f

theorem bumpLoop_inv (rules : List ReleaseRule) :
    ∀ (hist : List (List Char)) (v : Semver) (f : Bool),
      bumpLoop rules v f hist = (v, f) ∨
      ((bumpLoop rules v f hist).1.Precedence v = 1 ∧ (bumpLoop rules v f hist).2 = true) := by
  intro hist
  induction hist with
  | nil =>
    intro v f
    left
    rfl
  | cons msg rest ih =>
    intro v f
    rw [bumpLoop]
    cases hcl : classifyCommit msg with
    | none => exact ih v f
    | some cc =>
      simp only []
      by_cases hbr : cc.breaking = true
      · rw [if_pos hbr]
        exact Or.inr ⟨bumpMajor_gt v, rfl⟩
      · rw [if_neg hbr]
        rcases applyRules_inv cc.ctype rules v f with happ | ⟨h1, h2⟩
        · rw [happ]
          exact ih v f
        · rcases ih (applyRules rules cc.ctype v f).1 (applyRules rules cc.ctype v f).2 with
            hl | ⟨g1, g2⟩
          · rw [hl]
            exact Or.inr ⟨h1, h2⟩
          · exact Or.inr ⟨prec_trans g1 h1, g2⟩

theorem bumpLoopAll_inv (rules : List ReleaseRule) :
    ∀ (hist : List (List Char)) (v : Semver) (f : Bool),
      bumpLoopAll rules v f hist = (v, f) ∨
      ((bumpLoopAll rules v f hist).1.Precedence v = 1 ∧ (bumpLoopAll rules v f hist).2 = true) := by
  intro hist
  induction hist with
  | nil =>
    intro v f
    left
    rfl
  | cons msg rest ih =>
    intro v f
    rw [bumpLoopAll]
    cases hcl : classifyCommit msg with
    | none => exact ih v f
    | some cc =>
      simp only []
      by_cases hbr : cc.breaking = true
      · rw [if_pos hbr]
        rcases ih v.BumpMajor true with h | ⟨h1, h2⟩
        · rw [h]
          exact Or.inr ⟨bumpMajor_gt v, rfl⟩
        · exact Or.inr ⟨prec_trans h1 (bumpMajor_gt v), h2⟩
      · rw [if_neg hbr]
        rcases applyRules_inv cc.ctype rules v f with happ | ⟨h1, h2⟩
        · rw [happ]
          exact ih v f
        · rcases ih (applyRules rules cc.ctype v f).1 (applyRules rules cc.ctype v f).2 with
            hl | ⟨g1, g2⟩
          · rw [hl]
            exact Or.inr ⟨h1, h2⟩
          · exact Or.inr ⟨prec_trans g1 h1, g2⟩

/-- C9: the computed version never has lower precedence than the starting
version, and it has strictly greater precedence exactly when the returned
release flag is true: every applied bump strictly increases precedence and
the flag is set exactly when some bump is applied. -/
theorem c9_result_monotone :
    ∀ (rules : List ReleaseRule) (start : Semver) (history : List (List Char)),
      ((ComputeNewSemverNumber rules start history).1.Precedence start ≠ -1) ∧
      ((ComputeNewSemverNumber rules start history).2 = true ↔
        (ComputeNewSemverNumber rules start history).1.Precedence start = 1) := by
  intro rules start history
  unfold ComputeNewSemverNumber
  rcases bumpLoop_inv rules history start false with h | ⟨h1, h2⟩
  · rw [h]
    simp [prec_refl]
  · rw [h1, h2]
    simp

theorem bumpLoop_break (rules : List ReleaseRule) (c : List Char)
    (h2 : List (List Char)) (hc : isBreakingCommit c = true) :
    ∀ (h1 : List (List Char)), (∀ msg ∈ h1, isBreakingCommit msg = false) →
      ∀ (v : Semver) (f : Bool),
        bumpLoop rules v f (h1 ++ c :: h2) = ((bumpLoop rules v f h1).1.BumpMajor, true) := by
  intro h1
  induction h1 with
  | nil =>
    intro _ v f
    rw [List.nil_append]
    unfold isBreakingCommit at hc
    cases hcl : classifyCommit c with
    | none =>
      exact Bool.noConfusion (by simpa only [hcl] using hc)
    | some cc =>
      simp only [hcl] at hc
      have hL : bumpLoop rules v f (c :: h2) = (v.BumpMajor, true) := by
        rw [bumpLoop, hcl]
        simp only []
        rw [if_pos hc]
      rw [hL]
      rfl
  | cons msg t ih =>
    intro hall v f
    have hmsg : isBreakingCommit msg = false := hall msg (by simp)
    rw [List.cons_append]
    cases hcl : classifyCommit msg with
    | none =>
      have hstepL : bumpLoop rules v f (msg :: (t ++ c :: h2)) =
          bumpLoop rules v f (t ++ c :: h2) := by
        rw [bumpLoop, hcl]
      have hstepR : bumpLoop rules v f (msg :: t) = bumpLoop rules v f t := by
        rw [bumpLoop, hcl]
      rw [hstepL, hstepR]
      exact ih (fun x hx => hall x (by simp [hx])) v f
    | some cc =>
      have hbr : cc.breaking = false := by
        unfold isBreakingCommit at hmsg
        rw [hcl] at hmsg
        exact hmsg
      have hstepL : bumpLoop rules v f (msg :: (t ++ c :: h2)) =
          bumpLoop rules (applyRules rules cc.ctype v f).1
            (applyRules rules cc.ctype v f).2 (t ++ c :: h2) := by
        rw [bumpLoop, hcl]
        simp only []
        rw [if_neg (by rw [hbr]; exact Bool.false_ne_true)]
      have hstepR : bumpLoop rules v f (msg :: t) =
          bumpLoop rules (applyRules rules cc.ctype v f).1
            (applyRules rules cc.ctype v f).2 t := by
        rw [bumpLoop, hcl]
        simp only []
        rw [if_neg (by rw [hbr]; exact Bool.false_ne_true)]
      rw [hstepL, hstepR]
      exact ih (fun x hx => hall x (by simp [hx]))
        (applyRules rules cc.ctype v f).1 (applyRules rules cc.ctype v f).2

/-- C1: when the bump loop reaches the first breaking commit it bumps major,
returns the release flag true, and terminates: the commits after the
breaking one never contribute (the result does not depend on them).  At
1.0.0 with rules feat to minor and fix to patch, the history of the
breaking feat commit followed by the fix commit yields 2.0.0 with a release,
identical to the history without the fix commit. -/
theorem c1_breaking_short_circuit :
    (∀ (rules : List ReleaseRule) (start : Semver) (h1 : List (List Char))
        (c : List Char) (h2 : List (List Char)),
      (∀ msg ∈ h1, isBreakingCommit msg = false) → isBreakingCommit c = true →
      ComputeNewSemverNumber rules start (h1 ++ c :: h2) =
        ((ComputeNewSemverNumber rules start h1).1.BumpMajor, true)) ∧
    ComputeNewSemverNumber
        [⟨"feat".toList, "minor".toList⟩, ⟨"fix".toList, "patch".toList⟩] ⟨1, 0, 0, []⟩
        ["feat!: breaking change".toList, "fix: c".toList] = (⟨2, 0, 0, []⟩, true) ∧
    ComputeNewSemverNumber
        [⟨"feat".toList, "minor".toList⟩, ⟨"fix".toList, "patch".toList⟩] ⟨1, 0, 0, []⟩
        ["feat!: breaking change".toList, "fix: c".toList] =
      ComputeNewSemverNumber
        [⟨"feat".toList, "minor".toList⟩, ⟨"fix".toList, "patch".toList⟩] ⟨1, 0, 0, []⟩
        ["feat!: breaking change".toList] := by
  refine ⟨?_, by decide, by decide⟩
  intro rules start hOne c h2 hall hc
  unfold ComputeNewSemverNumber
  exact bumpLoop_break rules c h2 hc hOne hall start false

/-- Witness for C1: the breaking commit at the head of the history,
followed by a fix commit, discharges the hypotheses concretely. -/
theorem c1_breaking_short_circuit_witness :
    ComputeNewSemverNumber
        [⟨"feat".toList, "minor".toList⟩, ⟨"fix".toList, "patch".toList⟩] ⟨1, 0, 0, []⟩
        ([] ++ "feat!: breaking change".toList :: ["fix: c".toList]) =
      ((ComputeNewSemverNumber
          [⟨"feat".toList, "minor".toList⟩, ⟨"fix".toList, "patch".toList⟩] ⟨1, 0, 0, []⟩
          []).1.BumpMajor, true) :=
  c1_breaking_short_circuit.1
    [⟨"feat".toList, "minor".toList⟩, ⟨"fix".toList, "patch".toList⟩] ⟨1, 0, 0, []⟩
    [] "feat!: breaking change".toList ["fix: c".toList]
    (by intro msg hmsg; simp at hmsg) (by decide)

theorem bumpLoopAll_eq_of_no_breaking (rules : List ReleaseRule) :
    ∀ (hist : List (List Char)), (∀ m ∈ hist, isBreakingCommit m = false) →
      ∀ (v : Semver) (f : Bool), bumpLoopAll rules v f hist = bumpLoop rules v f hist := by
  intro hist
  induction hist with
  | nil =>
    intro _ v f
    rfl
  | cons msg rest ih =>
    intro hall v f
    have hmsg : isBreakingCommit msg = false := hall msg (by simp)
    rw [bumpLoopAll, bumpLoop]
    cases hcl : classifyCommit msg with
    | none => exact ih (fun x hx => hall x (by simp [hx])) v f
    | some cc =>
      have hbr : cc.breaking = false := by
        unfold isBreakingCommit at hmsg
        rw [hcl] at hmsg
        exact hmsg
      simp only []
      rw [if_neg (by rw [hbr]; exact Bool.false_ne_true),
        if_neg (by rw [hbr]; exact Bool.false_ne_true)]
      exact ih (fun x hx => hall x (by simp [hx])) _ _

theorem bumpLoopAll_ge_bumpLoop (rules : List ReleaseRule) :
    ∀ (hist : List (List Char)) (v : Semver) (f : Bool),
      (bumpLoopAll rules v f hist).1.Precedence (bumpLoop rules v f hist).1 ≠ -1 := by
  intro hist
  induction hist with
  | nil =>
    intro v f
    rw [bumpLoopAll, bumpLoop]
    simp [prec_refl]
  | cons msg rest ih =>
    intro v f
    rw [bumpLoopAll, bumpLoop]
    cases hcl : classifyCommit msg with
    | none => exact ih v f
    | some cc =>
      simp only []
      by_cases hbr : cc.breaking = true
      · rw [if_pos hbr, if_pos hbr]
        rcases bumpLoopAll_inv rules rest v.BumpMajor true with h | ⟨h1, _⟩
        · rw [h]
          simp [prec_refl]
        · rw [h1]
          decide
      · rw [if_neg hbr, if_neg hbr]
        exact ih _ _

/-- C3 counterexample: from 1.0.0 with the single rule fix to patch, the
history of a breaking feat commit followed by a fix commit yields 2.0.0
under the terminating loop but 2.0.1 under the loop that keeps folding
after the major bump: the short circuit does change the final numeric
result. -/
theorem c3_short_circuit_differs :
    ComputeNewSemverNumber [⟨"fix".toList, "patch".toList⟩] ⟨1, 0, 0, []⟩
        ["feat!: x".toList, "fix: c".toList] = (⟨2, 0, 0, []⟩, true) ∧
    computeAllVariant [⟨"fix".toList, "patch".toList⟩] ⟨1, 0, 0, []⟩
        ["feat!: x".toList, "fix: c".toList] = (⟨2, 0, 1, []⟩, true) ∧
    (⟨2, 0, 0, []⟩ : Semver) ≠ ⟨2, 0, 1, []⟩ := by
  refine ⟨by decide, by decide, by decide⟩

/-- C3 amended: the terminating loop and the keep-folding variant agree on
every history that contains no breaking commit; in general the variant that
keeps folding can only end at a version of precedence greater than or equal
to the short-circuit result, and strictly greater is possible, as the
counterexample shows. -/
theorem c3_amended_agreement :
    (∀ (rules : List ReleaseRule) (start : Semver) (history : List (List Char)),
      (∀ m ∈ history, isBreakingCommit m = false) →
      computeAllVariant rules start history = ComputeNewSemverNumber rules start history) ∧
    (∀ (rules : List ReleaseRule) (start : Semver) (history : List (List Char)),
      (computeAllVariant rules start history).1.Precedence
        (ComputeNewSemverNumber rules start history).1 ≠ -1) := by
  constructor
  · intro rules start history hall
    unfold computeAllVariant ComputeNewSemverNumber
    exact bumpLoopAll_eq_of_no_breaking rules history hall start false
  · intro rules start history
    unfold computeAllVariant ComputeNewSemverNumber
    exact bumpLoopAll_ge_bumpLoop rules history start false

/-- Witness for the amended C3 on a breaking-free history. -/
theorem c3_amended_agreement_witness :
    computeAllVariant [⟨"fix".toList, "patch".toList⟩] ⟨1, 0, 0, []⟩ ["fix: a".toList] =
      ComputeNewSemverNumber [⟨"fix".toList, "patch".toList⟩] ⟨1, 0, 0, []⟩
        ["fix: a".toList] :=
  c3_amended_agreement.1 [⟨"fix".toList, "patch".toList⟩] ⟨1, 0, 0, []⟩ ["fix: a".toList]
    (by decide)

theorem applyRules_fold (ty : List Char) :
    ∀ (rules : List ReleaseRule) (v : Semver) (f : Bool),
      applyRules rules ty v f =
        ((rules.filter (fun r => decide (ty = r.CommitType))).foldl
            (fun w r => bumpBySeverity r.ReleaseType w) v,
         f || rules.any (fun r =>
            decide (ty = r.CommitType) && validReleaseTypes.contains r.ReleaseType)) := by
  intro rules
  induction rules with
  | nil =>
    intro v f
    simp [applyRules]
  | cons rule rest ih =>
    intro v f
    by_cases hty : ty = rule.CommitType
    · rw [applyRules, if_neg (by simp [hty])]
      rw [List.filter_cons_of_pos (by simp [hty]), List.any_cons]
      by_cases hp : rule.ReleaseType = "patch".toList
      · rw [if_pos hp, ih v.BumpPatch true]
        simp [bumpBySeverity, hp, hty]
        exact Or.inr (Or.inl (by decide))
      · rw [if_neg hp]
        by_cases hm : rule.ReleaseType = "minor".toList
        · rw [if_pos hm, ih v.BumpMinor true]
          simp [bumpBySeverity, hp, hm, hty]
          exact Or.inr (Or.inl (by decide))
        · rw [if_neg hm]
          by_cases hM : rule.ReleaseType = "major".toList
          · rw [if_pos hM, ih v.BumpMajor true]
            simp [bumpBySeverity, hp, hm, hM, hty]
            exact Or.inr (Or.inl (by decide))
          · rw [if_neg hM, ih v f]
            have hmem : rule.ReleaseType ∉ validReleaseTypes := by
              intro hmem
              simp [validReleaseTypes] at hmem
              rcases hmem with h | h | h
              · exact hM h
              · exact hm h
              · exact hp h
            simp [bumpBySeverity, hp, hm, hM, hty, hmem]
            rw [if_neg (by simpa using hp), if_neg (by simpa using hm),
              if_neg (by simpa using hM)]
    · rw [applyRules, if_pos (by simpa using hty)]
      rw [List.filter_cons_of_neg (by simp [hty]), List.any_cons, ih v f]
      simp [hty]

/-- C2: for a classified non-breaking commit, every rule whose commit type
equals the classified type is applied in rule-list order, each severity
selecting its bump and setting the release flag, so one commit can be
bumped several times: the rule loop is the fold of the severity bumps over
the matching rules, with the flag set when some matching rule has a valid
severity; the loop then continues with the updated state.  At 1.0.0 with
the rule list feat to minor then feat to patch, the single commit feat: x
yields 1.1.1 with a release. -/
theorem c2_all_matching_rules_apply :
    (∀ (rules : List ReleaseRule) (ty : List Char) (v : Semver) (f : Bool),
      applyRules rules ty v f =
        ((rules.filter (fun r => decide (ty = r.CommitType))).foldl
            (fun w r => bumpBySeverity r.ReleaseType w) v,
         f || rules.any (fun r =>
            decide (ty = r.CommitType) && validReleaseTypes.contains r.ReleaseType))) ∧
    (∀ (rules : List ReleaseRule) (v : Semver) (f : Bool) (msg : List Char)
        (rest : List (List Char)) (cc : Classified),
      classifyCommit msg = some cc → cc.breaking = false →
      bumpLoop rules v f (msg :: rest) =
        bumpLoop rules (applyRules rules cc.ctype v f).1
          (applyRules rules cc.ctype v f).2 rest) ∧
    ComputeNewSemverNumber
        [⟨"feat".toList, "minor".toList⟩, ⟨"feat".toList, "patch".toList⟩] ⟨1, 0, 0, []⟩
        ["feat: x".toList] = (⟨1, 1, 1, []⟩, true) := by
  refine ⟨fun rules ty => applyRules_fold ty rules, ?_, by decide⟩
  intro rules v f msg rest cc hcl hbr
  rw [bumpLoop, hcl]
  simp only []
  rw [if_neg (by rw [hbr]; exact Bool.false_ne_true)]

/-- Witness for C2: the loop-step equation discharged on the concrete
commit feat: x. -/
theorem c2_all_matching_rules_apply_witness :
    bumpLoop [⟨"feat".toList, "minor".toList⟩] ⟨1, 0, 0, []⟩ false
        ["feat: x".toList] =
      bumpLoop [⟨"feat".toList, "minor".toList⟩]
        (applyRules [⟨"feat".toList, "minor".toList⟩] "feat".toList ⟨1, 0, 0, []⟩ false).1
        (applyRules [⟨"feat".toList, "minor".toList⟩] "feat".toList ⟨1, 0, 0, []⟩ false).2
        [] :=
  c2_all_matching_rules_apply.2.1 [⟨"feat".toList, "minor".toList⟩] ⟨1, 0, 0, []⟩ false
    "feat: x".toList [] ⟨"feat".toList, false⟩ (by decide) rfl

/-- C8: for a message that matches the conventional-commit grammar, the
summary is the first 57 chars of the message and a three-dot ellipsis when
the message is longer than 60 chars, and otherwise the message with its
final char removed. -/
theorem c8_short_message (msg : List Char) (h : (matchConventional msg).isSome = true) :
    shortMessage msg =
      if 60 < msg.length then msg.take 57 ++ "...".toList else msg.dropLast := by
  unfold shortMessage
  by_cases hl : msg.length > 60
  · rw [if_pos hl, if_pos hl]
  · rw [if_neg hl, if_neg hl, List.dropLast_eq_take]

/-- Witness for C8 on a concrete matching commit message. -/
theorem c8_short_message_witness :
    shortMessage "fix: a".toList =
      if 60 < "fix: a".toList.length then "fix: a".toList.take 57 ++ "...".toList
      else "fix: a".toList.dropLast :=
  c8_short_message "fix: a".toList (by decide)

theorem validRule_iff (r : ReleaseRule) :
    validRule r = true ↔
      (r.CommitType ∈ commitTypeTokens ∧ r.ReleaseType ∈ validReleaseTypes) := by
  unfold validRule
  rw [Bool.and_eq_true]
  constructor
  · intro ⟨h1, h2⟩
    exact ⟨List.elem_iff.mp h1, List.elem_iff.mp h2⟩
  · intro ⟨h1, h2⟩
    exact ⟨List.elem_iff.mpr h1, List.elem_iff.mpr h2⟩

/-- C7 counterexample: an explicitly present but empty rule list is
accepted, returning an empty rule set, where the claim requires a failure. -/
theorem c7_empty_rules_accepted :
    ParseReleaseRules (some []) = some [] ∧ some ([] : List ReleaseRule) ≠ none :=
  ⟨rfl, fun h => Option.noConfusion h⟩

/-- C7 amended: release-rule parsing fails exactly when the decoded rule
slice is nil (document absent, null field, or undecodable input) or some
rule has a commit type outside the eleven-token vocabulary or a severity
outside major, minor, patch.  An explicitly empty list passes (the required
tag of the validator only rejects nil slices) and any valid list, with
duplicate commit types or not, is returned unchanged. -/
theorem c7_amended_validation :
    ∀ input : Option (List ReleaseRule),
      (ParseReleaseRules input = none ↔
        (input = none ∨ ∃ l r, input = some l ∧ r ∈ l ∧
          ¬(r.CommitType ∈ commitTypeTokens ∧ r.ReleaseType ∈ validReleaseTypes))) ∧
      (∀ l, input = some l → (∀ r ∈ l, validRule r = true) →
        ParseReleaseRules input = some l) := by
  intro input
  cases input with
  | none =>
    constructor
    · simp [ParseReleaseRules]
    · intro l h
      exact Option.noConfusion h
  | some l =>
    constructor
    · by_cases hall : l.all validRule = true
      · rw [ParseReleaseRules, if_pos hall]
        simp only [List.all_eq_true] at hall
        constructor
        · intro h
          exact Option.noConfusion h
        · rintro (h | ⟨l2, r, hl2, hr, hbad⟩)
          · exact Option.noConfusion h
          · injection hl2 with hl2
            subst hl2
            exact absurd ((validRule_iff r).mp (hall r hr)) hbad
      · rw [ParseReleaseRules, if_neg hall]
        simp only [List.all_eq_true] at hall
        push_neg at hall
        obtain ⟨r, hr, hbad⟩ := hall
        constructor
        · intro _
          refine Or.inr ⟨l, r, rfl, hr, fun hmem => ?_⟩
          exact hbad ((validRule_iff r).mpr hmem)
        · intro _
          rfl
    · intro l2 hl2 hvalid
      injection hl2 with hl2
      subst hl2
      rw [ParseReleaseRules, if_pos (List.all_eq_true.mpr hvalid)]

/-- Witness for the amended C7 on a concrete valid one-rule list. -/
theorem c7_amended_validation_witness :
    ParseReleaseRules (some [⟨"feat".toList, "minor".toList⟩]) =
      some [⟨"feat".toList, "minor".toList⟩] :=
  (c7_amended_validation (some [⟨"feat".toList, "minor".toList⟩])).2
    [⟨"feat".toList, "minor".toList⟩] rfl (by decide)

theorem prec_not_gt_refl (a : Semver) : a.Precedence a ≠ 1 := by
  rw [prec_refl]
  decide

theorem prec_helper_A {t r l : Semver} (h1 : t.Precedence r ≠ 1) (h2 : t.Precedence l = 1) :
    r.Precedence l = 1 := by
  have h1k : ¬ ltKey r t := fun hk => h1 ((prec_one_iff t r).mpr hk)
  rw [prec_one_iff] at h2 ⊢
  unfold ltKey at *
  omega

theorem prec_helper_B {t l r : Semver} (h1 : t.Precedence l ≠ 1) (h2 : r.Precedence l = 1) :
    r.Precedence t = 1 := by
  have h1k : ¬ ltKey l t := fun hk => h1 ((prec_one_iff t l).mpr hk)
  rw [prec_one_iff] at h2 ⊢
  unfold ltKey at *
  omega

theorem prec_helper_C {a r : Semver} (h : r.Precedence a = 1) : a.Precedence r ≠ 1 := by
  intro hcontra
  rw [prec_one_iff] at h hcontra
  unfold ltKey at *
  omega

theorem tagStrictlyLater_iff {a b : TagObject} {va vb : Semver}
    (ha : NewSemverFromGitTag a.Name = some va)
    (hb : NewSemverFromGitTag b.Name = some vb) :
    tagStrictlyLater a b ↔ va.Precedence vb = 1 := by
  constructor
  · rintro ⟨x, y, hx, hy, h⟩
    rw [ha] at hx
    rw [hb] at hy
    injection hx with hx
    injection hy with hy
    subst hx
    subst hy
    exact h
  · intro h
    exact ⟨va, vb, ha, hb, h⟩

theorem reduceLatest_spec (rest : List TagObject) :
    ∀ latest : TagObject, (NewSemverFromGitTag latest.Name).isSome = true →
      (∀ t ∈ rest, (NewSemverFromGitTag t.Name).isSome = true) →
      ∃ r pre post, reduceLatest latest rest = some r ∧
        latest :: rest = pre ++ r :: post ∧
        (∀ t ∈ pre, tagStrictlyLater r t) ∧
        (∀ t ∈ latest :: rest, ¬ tagStrictlyLater t r) := by
  induction rest with
  | nil =>
    intro latest hl _
    obtain ⟨vl, hvl⟩ := Option.isSome_iff_exists.mp hl
    refine ⟨latest, [], [], rfl, rfl, by simp, ?_⟩
    intro t ht
    simp at ht
    subst ht
    rw [tagStrictlyLater_iff hvl hvl]
    exact prec_not_gt_refl vl
  | cons t rest ih =>
    intro latest hl hall
    have ht : (NewSemverFromGitTag t.Name).isSome = true := hall t (by simp)
    obtain ⟨vt, hvt⟩ := Option.isSome_iff_exists.mp ht
    obtain ⟨vl, hvl⟩ := Option.isSome_iff_exists.mp hl
    have hstep : reduceLatest latest (t :: rest) =
        reduceLatest (if vt.Precedence vl = 1 then t else latest) rest := by
      rw [reduceLatest, hvt, hvl]
    have hallrest : ∀ x ∈ rest, (NewSemverFromGitTag x.Name).isSome = true :=
      fun x hx => hall x (by simp [hx])
    by_cases hgt : vt.Precedence vl = 1
    · rw [if_pos hgt] at hstep
      obtain ⟨r, pre, post, hred, hdecomp, hpre, hnot⟩ := ih t ht hallrest
      have hrmem : r ∈ t :: rest := by
        rw [hdecomp]
        simp
      have hr : (NewSemverFromGitTag r.Name).isSome = true := by
        rcases List.mem_cons.mp hrmem with hx | hx
        · rw [hx]; exact ht
        · exact hallrest r hx
      obtain ⟨vr, hvr⟩ := Option.isSome_iff_exists.mp hr
      have hrt : vt.Precedence vr ≠ 1 := by
        have := hnot t (by simp)
        rw [tagStrictlyLater_iff hvt hvr] at this
        exact this
      have hrl : vr.Precedence vl = 1 := prec_helper_A hrt hgt
      refine ⟨r, latest :: pre, post, by rw [hstep]; exact hred,
        by rw [List.cons_append, ← hdecomp], ?_, ?_⟩
      · intro x hx
        rcases List.mem_cons.mp hx with hx | hx
        · rw [hx]
          rw [tagStrictlyLater_iff hvr hvl]
          exact hrl
        · exact hpre x hx
      · intro x hx
        rcases List.mem_cons.mp hx with hx | hx
        · rw [hx]
          rw [tagStrictlyLater_iff hvl hvr]
          exact prec_helper_C hrl
        · exact hnot x hx
    · rw [if_neg hgt] at hstep
      obtain ⟨r, pre, post, hred, hdecomp, hpre, hnot⟩ := ih latest hl hallrest
      cases pre with
      | nil =>
        rw [List.nil_append] at hdecomp
        have hlr : latest = r := (List.cons.injEq _ _ _ _ ▸ hdecomp).1
        have hrest : rest = post := (List.cons.injEq _ _ _ _ ▸ hdecomp).2
        refine ⟨r, [], t :: post, by rw [hstep]; exact hred, ?_, by simp, ?_⟩
        · rw [List.nil_append, ← hlr, ← hrest]
        · intro x hx
          rcases List.mem_cons.mp hx with hx | hx
          · rw [hx]
            exact hnot latest (by simp)
          · rcases List.mem_cons.mp hx with hx | hx
            · rw [hx]
              rw [tagStrictlyLater_iff hvt (hlr ▸ hvl)]
              exact hgt
            · exact hnot x (by simp [hx])
      | cons p0 pre2 =>
        rw [List.cons_append] at hdecomp
        have hlp : latest = p0 := (List.cons.injEq _ _ _ _ ▸ hdecomp).1
        have hrest : rest = pre2 ++ r :: post := (List.cons.injEq _ _ _ _ ▸ hdecomp).2
        have hrmem : r ∈ rest := by
          rw [hrest]
          simp
        obtain ⟨vr, hvr⟩ := Option.isSome_iff_exists.mp (hallrest r hrmem)
        have hrgtl : vr.Precedence vl = 1 := by
          have := hpre p0 (by simp)
          rw [← hlp] at this
          rw [tagStrictlyLater_iff hvr hvl] at this
          exact this
        have hrgtt : vr.Precedence vt = 1 := prec_helper_B hgt hrgtl
        refine ⟨r, latest :: t :: pre2, post, by rw [hstep]; exact hred, ?_, ?_, ?_⟩
        · rw [List.cons_append, List.cons_append, ← hrest]
        · intro x hx
          rcases List.mem_cons.mp hx with hx | hx
          · rw [hx]
            rw [tagStrictlyLater_iff hvr hvl]
            exact hrgtl
          · rcases List.mem_cons.mp hx with hx | hx
            · rw [hx]
              rw [tagStrictlyLater_iff hvr hvt]
              exact hrgtt
            · exact hpre x (by simp [hx])
        · intro x hx
          rcases List.mem_cons.mp hx with hx | hx
          · rw [hx]
            exact hnot latest (by simp)
          · rcases List.mem_cons.mp hx with hx | hx
            · rw [hx]
              rw [tagStrictlyLater_iff hvt hvr]
              exact prec_helper_C hrgtt
            · exact hnot x (by simp [hx])

/-- C4: over two or more semver-matching tags, the resolver reduces
pairwise, replacing the retained candidate only on strictly greater
precedence, so the returned tag is the first tag of maximal precedence:
every earlier tag has strictly lower precedence and no tag in the list has
strictly greater precedence (on ties the earlier-seen tag is kept).  On
the tags v1.0.0, v1.2.0, v2.0.0 the resolver returns v2.0.0. -/
theorem c4_latest_tag_first_max :
    (∀ tags : List TagObject, 2 ≤ tags.length →
      (∀ t ∈ tags, semverMatchString t.Name = true) →
      ∃ r pre post, fetchLatestSemverTag tags = some (.found r) ∧
        tags = pre ++ r :: post ∧
        (∀ t ∈ pre, tagStrictlyLater r t) ∧
        (∀ t ∈ tags, ¬ tagStrictlyLater t r)) ∧
    fetchLatestSemverTag
        [⟨"v1.0.0".toList⟩, ⟨"v1.2.0".toList⟩, ⟨"v2.0.0".toList⟩] =
      some (.found ⟨"v2.0.0".toList⟩) := by
  refine ⟨?_, by decide⟩
  intro tags hlen hmatch
  have hparse : ∀ t ∈ tags, (NewSemverFromGitTag t.Name).isSome = true := by
    intro t ht
    have hm := hmatch t ht
    unfold semverMatchString at hm
    unfold NewSemverFromGitTag
    cases hf : semverFind t.Name with
    | none =>
      rw [hf] at hm
      simp at hm
    | some v =>
      obtain ⟨d1, d2, d3⟩ := v
      simp
  have hfilter : tags.filter (fun t => semverMatchString t.Name) = tags :=
    List.filter_eq_self.mpr (fun a ha => by simp [hmatch a ha])
  cases tags with
  | nil => simp at hlen
  | cons t0 ts =>
    cases ts with
    | nil => simp at hlen
    | cons t1 rest =>
      have h0 : (NewSemverFromGitTag t0.Name).isSome = true := hparse t0 (by simp)
      obtain ⟨v0, hv0⟩ := Option.isSome_iff_exists.mp h0
      obtain ⟨r, pre, post, hred, hdecomp, hpre, hnot⟩ :=
        reduceLatest_spec (t1 :: rest) t0 h0 (fun x hx => hparse x (by simp [hx]))
      refine ⟨r, pre, post, ?_, hdecomp, hpre, hnot⟩
      unfold fetchLatestSemverTag
      rw [hfilter]
      simp only []
      rw [hv0]
      simp only []
      rw [hred]
      rfl

/-- Witness for C4: the first-maximum characterization discharged on the
three concrete tags. -/
theorem c4_latest_tag_first_max_witness :
    ∃ r pre post,
      fetchLatestSemverTag
          [⟨"v1.0.0".toList⟩, ⟨"v1.2.0".toList⟩, ⟨"v2.0.0".toList⟩] =
        some (.found r) ∧
      [TagObject.mk "v1.0.0".toList, ⟨"v1.2.0".toList⟩, ⟨"v2.0.0".toList⟩] =
        pre ++ r :: post ∧
      (∀ t ∈ pre, tagStrictlyLater r t) ∧
      (∀ t ∈ [TagObject.mk "v1.0.0".toList, ⟨"v1.2.0".toList⟩, ⟨"v2.0.0".toList⟩],
        ¬ tagStrictlyLater t r) :=
  c4_latest_tag_first_max.1
    [⟨"v1.0.0".toList⟩, ⟨"v1.2.0".toList⟩, ⟨"v2.0.0".toList⟩]
    (by decide) (by decide)
